import Mathlib

/-!
Verification of the version-aware HTTP routing and API-composition core of
`hug/api.py` (a sanic/aio fork of the hug framework).

The Python module is shallowly embedded: Python `OrderedDict`s become
association lists (`alGet`/`alSet`/`alModify` mirror `d[k]`, `d[k] = v`,
`setdefault`), Python `set`s become lists iterated in an arbitrary but fixed
order, handlers and middleware objects become `Nat` identifiers, and the
mutable `interface.api` owner reference on handler objects is modeled by a
heap `Nat -> Nat` from handler identifier to owner identifier.  Version
values stored in `self.versions` can be `None`, `False` (the
infer-from-path sentinel) or an `int`; they are modeled by `VVal`.
-/

/-- A member of the `versions` set / a version key of the route table:
Python `None`, Python `False`, or an integer version. -/
inductive VVal
  | vnone
  | vfalse
  | vint (n : Nat)
deriving DecidableEq

/-- Python truthiness of a version value (`if version:` in
`determine_version`): `None`, `False` and `0` are falsy. -/
def VVal.truthy : VVal → Bool
  | .vnone => false
  | .vfalse => false
  | .vint n => n != 0

/-- `str(version)` for the version values the module manipulates. -/
def VVal.str : VVal → String
  | .vnone => "None"
  | .vfalse => "False"
  | .vint n => toString n

/-- `isPrefixChars needle hay`: `needle` is a prefix of `hay` (char lists). -/
def isPrefixChars : List Char → List Char → Bool
  | [], _ => true
  | _ :: _, [] => false
  | a :: as, b :: bs => a == b && isPrefixChars as bs

/-- Substring occurrence on char lists, mirroring Python `needle in hay`. -/
def containsSub (needle : List Char) : List Char → Bool
  | [] => isPrefixChars needle []
  | c :: rest => isPrefixChars needle (c :: rest) || containsSub needle rest

/-- Python `needle in hay` for strings. -/
def strIn (needle hay : String) : Bool :=
  containsSub needle.toList hay.toList

/-- The `api_version` argument of `determine_version`: Python `False`
(the "infer from the URL path" sentinel), `None`, or a concrete version. -/
inductive VSignal
  | vfalse
  | vnone
  | vsome (n : Nat)
deriving DecidableEq

/-- The path-inference loop of `HTTPInterfaceAPI.determine_version`
(api.py lines 262-267):

    for version in self.versions:
        if version and "v{0}".format(version) in request.path:
            api_version = version
            break

The first truthy declared version whose rendering `v<n>` occurs as a
substring of the request path is taken; otherwise the result stays `None`.
-/
def inferVersion (versions : List VVal) (path : String) : Option Nat :=
  match versions with
  | [] => none
  | .vint n :: rest =>
      if (n != 0) && strIn ("v" ++ toString n) path then some n
      else inferVersion rest path
  | _ :: rest => inferVersion rest path

/-- `HTTPInterfaceAPI.determine_version` (api.py lines 260-284).  The
request-header and query-parameter version sources are commented out in the
source, so at most one version is ever added to `request_version`; the
`len(request_version) > 1` branch (the `ValueError` "You are requesting
conflicting versions") is kept faithfully. -/
def determine_version (versions : List VVal) (path : String) (api_version : VSignal) :
    Except String (Option Nat) :=
  let av : Option Nat :=
    match api_version with
    | .vfalse => inferVersion versions path
    | .vnone => none
    | .vsome n => some n
  let request_version : List Nat := match av with | some v => [v] | none => []
  if request_version.length > 1 then
    Except.error "You are requesting conflicting versions"
  else
    Except.ok request_version.head?

/-- Modeled from the spec (amended wording for C6): scan the declared
versions excluding `None`, `False` and `0`, taking the first one whose
`v<n>` rendering occurs in the path. -/
def specInfer (versions : List VVal) (path : String) : Option Nat :=
  match versions with
  | [] => none
  | .vnone :: rest => specInfer rest path
  | .vfalse :: rest => specInfer rest path
  | .vint 0 :: rest => specInfer rest path
  | .vint (n + 1) :: rest =>
      if strIn ("v" ++ toString (n + 1)) path then some (n + 1)
      else specInfer rest path

/-! ## Association lists

Python `OrderedDict`/`dict` values are modeled as association lists.
`alGet` is `d.get(k)`, `alSet` is `d[k] = v` (update in place, append when
absent — matching insertion-order preservation), `alModify` mutates an
existing entry's value, and `alSetD` is `d.setdefault(k, v)`. -/

def alGet {α β : Type} [DecidableEq α] (k : α) : List (α × β) → Option β
  | [] => none
  | (k', v) :: t => if k' = k then some v else alGet k t

def alSet {α β : Type} [DecidableEq α] (k : α) (v : β) : List (α × β) → List (α × β)
  | [] => [(k, v)]
  | (k', v') :: t => if k' = k then (k, v) :: t else (k', v') :: alSet k v t

def alModify {α β : Type} [DecidableEq α] (k : α) (f : β → β) : List (α × β) → List (α × β)
  | [] => []
  | (k', v') :: t => if k' = k then (k', f v') :: t else (k', v') :: alModify k f t

def alSetD {α β : Type} [DecidableEq α] (k : α) (v : β) (l : List (α × β)) : List (α × β) :=
  if (alGet k l).isSome then l else l ++ [(k, v)]

/-! ## The HTTP interface registry state

`HTTPInterfaceAPI.routes` is `base_url -> path -> method -> version ->
handler`; handlers are opaque objects modeled by `Nat` identifiers whose
mutable `interface.api` owner reference lives in a `Heap`. -/

abbrev Heap := Nat → Nat

abbrev VersionMap := List (VVal × Nat)
abbrev MethodMap := List (String × VersionMap)
abbrev PathMap := List (String × MethodMap)
abbrev RouteTable := List (String × PathMap)

/-- All handler identifiers reachable from one route-table bucket value
(the `method -> version -> handler` dict stored per path). -/
def mmIds (mm : MethodMap) : List Nat :=
  (mm.map fun mv => mv.2.map Prod.snd).flatten

/-- `function.interface.api = api` applied to every handler in `ids`:
the owner reference of those handler objects is rebound in place. -/
def rebind (heap : Heap) (ids : List Nat) (api : Nat) : Heap :=
  fun i => if i ∈ ids then api else heap i

/-- The `not_found_middleware` unit installed by `HTTPInterfaceAPI.__init__`. -/
def notFoundMiddleware : Nat := 0

/-- The fields of `HTTPInterfaceAPI` the routing/composition core uses.
Lazily-created Python attributes (`_exception_handlers`,
`_not_found_handlers`, `_input_format`, `_startup_handlers`) are modeled as
initially-empty tables, which has the same observable lookups. -/
structure HTTPApi where
  versions : List VVal
  routes : RouteTable
  sinks : List (String × List (String × Nat))
  middleware : List Nat
  startup_handlers : List Nat
  exceptionHandlerTable : List (Option Nat × List (Nat × Nat))
  input_format_tbl : List (String × Nat)
  not_found_handlers : List (Option Nat × Nat)
  base_url : String
  api : Nat

/-- `HTTPInterfaceAPI.__init__(api, base_url='')`. -/
def emptyHTTP (api : Nat) (base_url : String) : HTTPApi :=
  { versions := [], routes := [], sinks := [], middleware := [notFoundMiddleware],
    startup_handlers := [], exceptionHandlerTable := [], input_format_tbl := [],
    not_found_handlers := [], base_url := base_url, api := api }

/-- `HTTPInterfaceAPI.exception_handlers(version)`:
`self._exception_handlers.get(version, self._exception_handlers.get(None, None))`. -/
def exception_handlers (tbl : List (Option Nat × List (Nat × Nat))) (version : Option Nat) :
    Option (List (Nat × Nat)) :=
  match alGet version tbl with
  | some t => some t
  | none => alGet none tbl

/-- `HTTPInterfaceAPI.add_exception_handler` for a single version value:
`self._exception_handlers.setdefault(version, OrderedDict())[exception_type]
= error_handler`. -/
def add_exception_handler (tbl : List (Option Nat × List (Nat × Nat)))
    (exception_type error_handler : Nat) (version : Option Nat) :
    List (Option Nat × List (Nat × Nat)) :=
  if (alGet version tbl).isSome then
    alModify version (alSet exception_type error_handler) tbl
  else tbl ++ [(version, [(exception_type, error_handler)])]

/-! ## `HTTPInterfaceAPI.extend` (api.py lines 148-184), phase by phase. -/

/-- `self.routes[base_url][route + item_route] = handler`. -/
def insertRoute (effBase pth : String) (mm : MethodMap) (rt : RouteTable) : RouteTable :=
  alModify effBase (alSet pth mm) rt

/-- Inner loop of the route phase: for each `(item_route, handler)` of one
bucket of `other`, rebind every reachable handler's owner to `self.api` and
store the (shared, not copied) bucket value under `route + item_route`. -/
def extendBucket (api : Nat) (effBase route : String) :
    PathMap → RouteTable × Heap → RouteTable × Heap
  | [], st => st
  | (p, mm) :: rest, st =>
      extendBucket api effBase route rest
        (insertRoute effBase (route ++ p) mm st.1, rebind st.2 (mmIds mm) api)

/-- Outer loop of the route phase.  Note the source performs
`self.routes.setdefault(base_url, OrderedDict())` with the *already
resolved* `base_url` (override or `self.base_url`): the iterated bucket key
`router_base_url` of `other` is ignored. -/
def extendRoutesPhase (api : Nat) (effBase route : String) :
    RouteTable → RouteTable × Heap → RouteTable × Heap
  | [], st => st
  | (_, paths) :: rest, st =>
      extendRoutesPhase api effBase route rest
        (extendBucket api effBase route paths (alSetD effBase [] st.1, st.2))

/-- `HTTPInterfaceAPI.add_sink(sink, url, base_url="")`. -/
def add_sink (selfBase : String) (sinks : List (String × List (String × Nat)))
    (sink : Nat) (url base_url : String) : List (String × List (String × Nat)) :=
  let b := if base_url = "" then selfBase else base_url
  if (alGet b sinks).isSome then alModify b (alSet url sink) sinks
  else sinks ++ [(b, [(url, sink)])]

def extendSinkEntries (selfBase effBase route : String) :
    List (String × Nat) → List (String × List (String × Nat)) →
      List (String × List (String × Nat))
  | [], acc => acc
  | (url, sink) :: rest, acc =>
      extendSinkEntries selfBase effBase route rest
        (add_sink selfBase acc sink (route ++ url) effBase)

def extendSinksPhase (selfBase effBase route : String) :
    List (String × List (String × Nat)) → List (String × List (String × Nat)) →
      List (String × List (String × Nat))
  | [], acc => acc
  | (_, entries) :: rest, acc =>
      extendSinksPhase selfBase effBase route rest
        (extendSinkEntries selfBase effBase route entries acc)

/-- `add_middleware`: Python `set.add`, modeled as append-if-absent. -/
def add_middleware (mws : List Nat) (m : Nat) : List Nat :=
  if m ∈ mws then mws else mws ++ [m]

def extendMiddlewarePhase : List Nat → List Nat → List Nat
  | [], acc => acc
  | m :: rest, acc => extendMiddlewarePhase rest (add_middleware acc m)

/-- Exception-handler backfill of `extend` (api.py lines 172-176): for each
`(version, kind, handler)` of `self`, when `other`'s *fallback-resolved*
table for that version lacks the kind, copy the handler into `other`.
`other` is the structure being mutated here. -/
def extendExcEntries (version : Option Nat) :
    List (Nat × Nat) → List (Option Nat × List (Nat × Nat)) →
      List (Option Nat × List (Nat × Nat))
  | [], otherTbl => otherTbl
  | (ek, eh) :: rest, otherTbl =>
      extendExcEntries version rest
        (if (alGet ek ((exception_handlers otherTbl version).getD [])).isSome then otherTbl
         else add_exception_handler otherTbl ek eh version)

def extendExcPhase :
    List (Option Nat × List (Nat × Nat)) → List (Option Nat × List (Nat × Nat)) →
      List (Option Nat × List (Nat × Nat))
  | [], otherTbl => otherTbl
  | (version, entries) :: rest, otherTbl =>
      extendExcPhase rest (extendExcEntries version entries otherTbl)

/-- Input-format merge: copy `other`'s entries absent from `self`. -/
def extendInputPhase : List (String × Nat) → List (String × Nat) → List (String × Nat)
  | [], selfTbl => selfTbl
  | (fmt, h) :: rest, selfTbl =>
      extendInputPhase rest (if (alGet fmt selfTbl).isSome then selfTbl else alSet fmt h selfTbl)

/-- Not-found-handler merge: copy `other`'s entries absent from `self`. -/
def extendNotFoundPhase : List (Option Nat × Nat) → List (Option Nat × Nat) → List (Option Nat × Nat)
  | [], selfTbl => selfTbl
  | (version, h) :: rest, selfTbl =>
      extendNotFoundPhase rest
        (if (alGet version selfTbl).isSome then selfTbl else alSet version h selfTbl)

/-- `self.versions.update(other.versions)` (Python `set.update`). -/
def setUpdate : List VVal → List VVal → List VVal
  | selfV, [] => selfV
  | selfV, v :: rest => setUpdate (if v ∈ selfV then selfV else selfV ++ [v]) rest

/-- `HTTPInterfaceAPI.extend(http_api, route="", base_url="")`.  Returns the
mutated `self`, the mutated `other` (its exception table receives the
backfill) and the mutated handler heap (owner rebinding). -/
def HTTPApi.extend (heap : Heap) (self other : HTTPApi) (route base_url : String) :
    HTTPApi × HTTPApi × Heap :=
  let effBase := if base_url = "" then self.base_url else base_url
  let st := extendRoutesPhase self.api effBase route other.routes (self.routes, heap)
  ({ self with
      versions := setUpdate self.versions other.versions,
      routes := st.1,
      sinks := extendSinksPhase self.base_url effBase route other.sinks self.sinks,
      middleware := extendMiddlewarePhase other.middleware self.middleware,
      startup_handlers := self.startup_handlers ++ other.startup_handlers,
      input_format_tbl := extendInputPhase other.input_format_tbl self.input_format_tbl,
      not_found_handlers := extendNotFoundPhase other.not_found_handlers self.not_found_handlers },
   { other with
      exceptionHandlerTable :=
        extendExcPhase self.exceptionHandlerTable other.exceptionHandlerTable },
   st.2)

/-! ## `HTTPInterfaceAPI.aio_server` (api.py lines 316-386) -/

/-- One concrete server route: `(uri, method, handler)`. -/
abbrev Registration := String × String × Nat

/-- The `routers[method_function]` dict built per bucket: when the bucket
holds exactly the unversioned entry it is rebuilt as `{None: handler}`,
otherwise all entries are copied (both branches reproduce the bucket). -/
def mkRouters (vers : VersionMap) : VersionMap :=
  match vers, alGet VVal.vnone vers with
  | [_], some h => [(VVal.vnone, h)]
  | _, _ => vers

/-- The `for ver in self.versions` registration loop: `None` is skipped
(`if ver == None: continue` — note Python `False == None` is false, so a
`False` member would not be skipped); a version with a handler in the
bucket registers it at `/v<ver>`, otherwise the bucket's *first* handler
(`list(routers[mf].keys())[0]`) is registered there.  The source raises
`IndexError` on an empty bucket; that unreachable case yields `[]` here. -/
def aioVersionLoop (routers : VersionMap) (rbu url method : String) :
    List VVal → List Registration
  | [] => []
  | ver :: rest =>
      (if ver = VVal.vnone then []
       else
         match alGet ver routers with
         | some h => [(rbu ++ "/v" ++ ver.str ++ url, method, h)]
         | none =>
             match routers with
             | (_, h0) :: _ => [(rbu ++ "/v" ++ ver.str ++ url, method, h0)]
             | [] => []) ++
      aioVersionLoop routers rbu url method rest

/-- Registrations produced for one `(base_url, url, method)` bucket: the
unversioned route at `base_url + url` when a `None` entry exists, then the
per-version routes.  `if self.versions and self.versions != (None,)` — the
second conjunct compares a set with a tuple and is always true, so the
guard is just non-emptiness of `self.versions`. -/
def aioBucket (selfVersions : List VVal) (rbu url method : String) (vers : VersionMap) :
    List Registration :=
  let routers := mkRouters vers
  (match alGet VVal.vnone routers with
   | some h => [(rbu ++ url, method, h)]
   | none => []) ++
  (if selfVersions = [] then [] else aioVersionLoop routers rbu url method selfVersions)

def aioMethods (selfVersions : List VVal) (rbu url : String) : MethodMap → List Registration
  | [] => []
  | (method, vers) :: rest =>
      aioBucket selfVersions rbu url method vers ++ aioMethods selfVersions rbu url rest

def aioPaths (selfVersions : List VVal) (rbu : String) : PathMap → List Registration
  | [] => []
  | (url, methods) :: rest =>
      aioMethods selfVersions rbu url methods ++ aioPaths selfVersions rbu rest

/-- All `app.add_route` calls made by `aio_server`, in order. -/
def aioRoutes (selfVersions : List VVal) : RouteTable → List Registration
  | [] => []
  | (rbu, paths) :: rest => aioPaths selfVersions rbu paths ++ aioRoutes selfVersions rest

/-- The 404 handler `aio_server` installs: the built-in
documentation-producing handler or a registered custom one. -/
inductive NFChoice
  | docDefault
  | custom (h : Nat)
deriving DecidableEq

/-- Not-found selection of `aio_server` (api.py lines 378-386).
`default_not_found` models the `default_not_found is True` test (the only
call sites pass `True` or `None`). -/
def aioNotFound (default_not_found : Bool) (nfh : List (Option Nat × Nat)) : Option NFChoice :=
  let dflt : Option NFChoice := if default_not_found then some NFChoice.docDefault else none
  if nfh ≠ [] then
    if nfh.length = 1 ∧ (alGet (none : Option Nat) nfh).isSome then
      (alGet (none : Option Nat) nfh).map NFChoice.custom
    else dflt
  else dflt

/-! ## `CLIInterfaceAPI.__call__` (api.py lines 424-430) -/

inductive CLIResult
  | exitStatus (code : Nat)
  | invoke (handler : Nat) (argvAfter : List String)
deriving DecidableEq

/-- CLI dispatch: `sys.exit(1)` unless `sys.argv[1]` exists and names a
registered command; otherwise `sys.argv.pop(1)` and the handler is invoked
(it observes the mutated argument vector, carried by `invoke`). -/
def cliCall (commands : List (String × Nat)) (argv : List String) : CLIResult :=
  match argv with
  | prog :: cmd :: rest =>
      match alGet cmd commands with
      | some h => CLIResult.invoke h (prog :: rest)
      | none => CLIResult.exitStatus 1
  | _ => CLIResult.exitStatus 1

/-! ## `API` (top level): directives and `API.extend` (api.py lines 461-507) -/

/-- A directive: `__name__` plus an identifier distinguishing the value. -/
structure Directive where
  name : String
  impl : Nat
deriving DecidableEq

/-- `API.add_directive(directive)`:
`self._directives[directive.__name__] = directive`. -/
def add_directive (ds : List (String × Directive)) (d : Directive) : List (String × Directive) :=
  alSet d.name d ds

/-- The directive loop of `API.extend`:
`for directive in api._directives.values(): self.add_directive(directive)`. -/
def addDirectivesLoop : List (String × Directive) → List (String × Directive) →
    List (String × Directive)
  | [], acc => acc
  | (_, d) :: rest, acc => addDirectivesLoop rest (add_directive acc d)

/-- The top-level `API` object: its directive mapping and lazily-created
HTTP registry (`_http` present or not). -/
structure APIState where
  apiId : Nat
  directives : List (String × Directive)
  http : Option HTTPApi

/-- `API.extend(api, route="", base_url="")`: delegates to
`HTTPInterfaceAPI.extend` when the other owner has an HTTP registry (the
`self.http` property lazily creates one on `self`), then copies every
directive of the other registry via `add_directive`. -/
def APIState.extend (heap : Heap) (self other : APIState) (route base_url : String) :
    APIState × APIState × Heap :=
  match other.http with
  | some oh =>
      let sh := match self.http with | some x => x | none => emptyHTTP self.apiId ""
      let r := HTTPApi.extend heap sh oh route base_url
      ({ self with
          http := some r.1,
          directives := addDirectivesLoop other.directives self.directives },
       { other with http := some r.2.1 },
       r.2.2)
  | none =>
      ({ self with directives := addDirectivesLoop other.directives self.directives },
       other, heap)

/-! ## `HTTPInterfaceAPI.documentation` (api.py lines 197-237)

The external call `handler.documentation(prev, version=..., base_url=...,
url=...)` is opaque; its result is modeled as a `DocFragment` recording the
arguments it was called with (including the previous fragment it wraps). -/

inductive DocFragment
  | mk (prev : Option DocFragment) (version : VVal) (base_url url : String) (handler : Nat)

abbrev MethodDocs := List (String × DocFragment)
abbrev VersionDict := List (String × MethodDocs)

/-- Every `version=` argument recorded in a fragment and the fragments it
wraps. -/
def DocFragment.versionsOf : DocFragment → List VVal
  | .mk none v _ _ _ => [v]
  | .mk (some p) v _ _ _ => v :: p.versionsOf

/-- `doc = version_dict.setdefault(router_base_url + url, OrderedDict());
doc[method] = handler.documentation(doc.get(method, None), ...)`. -/
def docInsert (vd : VersionDict) (key method : String) (version : VVal) (bu url : String)
    (h : Nat) : VersionDict :=
  let doc := (alGet key vd).getD []
  alSet key (alSet method (DocFragment.mk (alGet method doc) version bu url h) doc) vd

/-- Python `version != api_version` where `version` is a version value and
`api_version` an `int` (note Python `False == 0`). -/
def pyVerNe (v : VVal) (n : Nat) : Bool :=
  match v with
  | .vint k => k != n
  | .vfalse => n != 0
  | .vnone => true

/-- `if api_version and version != api_version: continue` — skip the
version unless the (truthy) requested version equals it. -/
def docSkip (apiV : Option Nat) (v : VVal) : Bool :=
  match apiV with
  | some n => (n != 0) && pyVerNe v n
  | none => false

/-- `for version in applies_to:` with the `docSkip` filter; a surviving
version calls `handler.documentation(...)` and stores the fragment. -/
def docApplyLoop (apiV : Option Nat) (effBase rbu url method : String) (h : Nat) :
    List VVal → VersionDict → VersionDict
  | [], vd => vd
  | v :: rest, vd =>
      docApplyLoop apiV effBase rbu url method h rest
        (if docSkip apiV v then vd
         else docInsert vd (rbu ++ url) method v (if rbu = "" then effBase else rbu) url h)

/-- `for version, handler in method_versions.items():` — skips handlers
with a truthy `private` attribute; unversioned handlers are expanded across
the whole declared version set (`applies_to = versions`, which still
contains `None`/`False`). -/
def docVMLoop (apiV : Option Nat) (selfVersions : List VVal) (effBase rbu url method : String)
    (priv : Nat → Bool) : VersionMap → VersionDict → VersionDict
  | [], vd => vd
  | (version, h) :: rest, vd =>
      docVMLoop apiV selfVersions effBase rbu url method priv rest
        (if priv h then vd
         else docApplyLoop apiV effBase rbu url method h
                (match version with | VVal.vnone => selfVersions | _ => [version]) vd)

def docMethodLoop (apiV : Option Nat) (selfVersions : List VVal) (effBase rbu url : String)
    (priv : Nat → Bool) : MethodMap → VersionDict → VersionDict
  | [], vd => vd
  | (method, vm) :: rest, vd =>
      docMethodLoop apiV selfVersions effBase rbu url priv rest
        (docVMLoop apiV selfVersions effBase rbu url method priv vm vd)

def docUrlLoop (apiV : Option Nat) (selfVersions : List VVal) (effBase rbu : String)
    (priv : Nat → Bool) : PathMap → VersionDict → VersionDict
  | [], vd => vd
  | (url, methods) :: rest, vd =>
      docUrlLoop apiV selfVersions effBase rbu priv rest
        (docMethodLoop apiV selfVersions effBase rbu url priv methods vd)

def docRoutesLoop (apiV : Option Nat) (selfVersions : List VVal) (effBase : String)
    (priv : Nat → Bool) : RouteTable → VersionDict → VersionDict
  | [], vd => vd
  | (rbu, paths) :: rest, vd =>
      docRoutesLoop apiV selfVersions effBase priv rest
        (docUrlLoop apiV selfVersions effBase rbu priv paths vd)

/-- `versions_list`: the declared versions with `None` and `False` removed. -/
def versionsListOf (versions : List VVal) : List VVal :=
  versions.filter fun v => decide (v ≠ VVal.vnone) && decide (v ≠ VVal.vfalse)

def vvNat : VVal → Nat
  | .vint n => n
  | _ => 0

/-- `max(versions_list)` (the surviving members are integer versions). -/
def maxVer (l : List VVal) : Nat := l.foldl (fun a v => Nat.max a (vvNat v)) 0

/-- `HTTPInterfaceAPI.documentation(base_url=None, api_version=None)`:
returns the `version` field (present iff some version was requested or
inferred), the `versions` field content, and the assembled handler
dictionary.  `priv` models the `private` attribute of handler objects. -/
def documentation (versions : List VVal) (routes : RouteTable) (self_base_url : String)
    (priv : Nat → Bool) (base_url_arg : Option String) (api_version_arg : Option Nat) :
    Option Nat × List VVal × VersionDict :=
  let effBase := match base_url_arg with | none => self_base_url | some b => b
  let versions_list := versionsListOf versions
  let apiV : Option Nat :=
    match api_version_arg with
    | none => if versions_list.isEmpty then none else some (maxVer versions_list)
    | some v => some v
  (apiV, versions_list, docRoutesLoop apiV versions effBase priv routes [])

/-- All fragments stored in a version dictionary. -/
def fragsOf (vd : VersionDict) : List DocFragment :=
  (vd.map fun kv => kv.2.map Prod.snd).flatten

/-- Every `version=` argument recorded anywhere in a version dictionary. -/
def vdVersions (vd : VersionDict) : List VVal :=
  ((fragsOf vd).map DocFragment.versionsOf).flatten

theorem inferVersion_eq_specInfer (versions : List VVal) (path : String) :
    inferVersion versions path = specInfer versions path := by
  induction versions with
  | nil => rfl
  | cons v rest ih =>
    match v with
    | .vnone => simpa [inferVersion, specInfer] using ih
    | .vfalse => simpa [inferVersion, specInfer] using ih
    | .vint 0 => simpa [inferVersion, specInfer] using ih
    | .vint (n + 1) =>
        simp only [inferVersion, specInfer]
        have hne : ((n + 1 : Nat) != 0) = true := by simp
        rw [hne, Bool.true_and]
        cases hs : strIn ("v" ++ toString (n + 1)) path <;> simp [hs, ih]

/-- Claim C1 (counterexample): with declared versions `{1, 2}`, an explicit
concrete version `1` and request path `/v2/x`, the path-inferable version is
`2`, the two differ, yet `determine_version` does not raise: it silently
returns the explicit version `1`.  Path inference only runs under the
`False` sentinel, so explicit and path-inferred versions are never
simultaneously asserted and the conflict branch never fires. -/
theorem determine_version_conflict_cex :
    inferVersion [VVal.vint 1, VVal.vint 2] "/v2/x" = some 2 ∧
    (some 2 : Option Nat) ≠ some 1 ∧
    determine_version [VVal.vint 1, VVal.vint 2] "/v2/x" (VSignal.vsome 1) =
      Except.ok (some 1) :=
  ⟨rfl, by decide, rfl⟩

/-- Claim C1 (amended): when an explicit concrete version is asserted,
`determine_version` does not perform path inference and returns exactly the
explicit version, never raising the conflicting-versions error — even when
a different declared version is inferable from the path.  (In particular,
when the explicit and path-inferable versions agree, resolution succeeds
and returns that version.) -/
theorem determine_version_explicit_wins (versions : List VVal) (path : String) (n : Nat) :
    determine_version versions path (VSignal.vsome n) = Except.ok (some n) := rfl

/-- Claim C6 (counterexample): version `0` is a declared version other than
`None` and `False`, and the substring `v0` occurs in the path `/v0/a`, yet
inference under the `False` sentinel resolves to `None` rather than `0`:
the scan skips every Python-falsy version, which excludes `0` as well. -/
theorem infer_version_zero_cex :
    strIn "v0" "/v0/a" = true ∧
    determine_version [VVal.vint 0] "/v0/a" VSignal.vfalse = Except.ok none ∧
    (Except.ok (some 0) : Except String (Option Nat)) ≠ Except.ok none :=
  ⟨rfl, rfl, fun h => Option.noConfusion (Except.ok.inj h)⟩

/-- Claim C6 (amended): when the explicit signal is the sentinel `False`,
`determine_version` scans the declared versions excluding `None`, `False`
and `0` (every Python-falsy value) for the first version `v` in iteration
order such that the substring `v<v>` occurs in the request path, and
resolves to `None` when no declared version matches. -/
theorem determine_version_infer_spec (versions : List VVal) (path : String) :
    determine_version versions path VSignal.vfalse = Except.ok (specInfer versions path) := by
  show determine_version versions path VSignal.vfalse = Except.ok (specInfer versions path)
  rw [← inferVersion_eq_specInfer]
  unfold determine_version
  cases h : inferVersion versions path <;> simp [h]

/-! ## Association-list lemmas -/

theorem alGet_alSet_self {α β : Type} [DecidableEq α] (k : α) (v : β) (l : List (α × β)) :
    alGet k (alSet k v l) = some v := by
  induction l with
  | nil => simp [alGet, alSet]
  | cons p t ih =>
    obtain ⟨k', v'⟩ := p
    by_cases h : k' = k
    · simp [alSet, alGet, h]
    · simp [alSet, alGet, h, ih]

theorem alGet_alSet_ne {α β : Type} [DecidableEq α] {k k' : α} (h : k ≠ k') (v : β)
    (l : List (α × β)) : alGet k' (alSet k v l) = alGet k' l := by
  induction l with
  | nil => simp [alGet, alSet, h]
  | cons p t ih =>
    obtain ⟨k'', v''⟩ := p
    by_cases h2 : k'' = k
    · subst h2
      simp [alSet, alGet, h]
    · simp [alSet, alGet, h2, ih]

theorem alGet_alSet_isSome {α β : Type} [DecidableEq α] (k k' : α) (v : β) (l : List (α × β))
    (hs : (alGet k' l).isSome) : (alGet k' (alSet k v l)).isSome := by
  by_cases h : k = k'
  · subst h
    simp [alGet_alSet_self]
  · rwa [alGet_alSet_ne h]

theorem alGet_alModify_self {α β : Type} [DecidableEq α] (k : α) (f : β → β)
    (l : List (α × β)) : alGet k (alModify k f l) = (alGet k l).map f := by
  induction l with
  | nil => simp [alGet, alModify]
  | cons p t ih =>
    obtain ⟨k', v'⟩ := p
    by_cases h : k' = k
    · simp [alModify, alGet, h]
    · simp [alModify, alGet, h, ih]

theorem alGet_alModify_ne {α β : Type} [DecidableEq α] {k k' : α} (h : k ≠ k') (f : β → β)
    (l : List (α × β)) : alGet k' (alModify k f l) = alGet k' l := by
  induction l with
  | nil => simp [alModify]
  | cons p t ih =>
    obtain ⟨k'', v''⟩ := p
    by_cases h2 : k'' = k
    · subst h2
      simp [alModify, alGet, h]
    · simp [alModify, alGet, h2, ih]

theorem alGet_append_of_some {α β : Type} [DecidableEq α] {k : α} {v : β} {l1 : List (α × β)}
    (l2 : List (α × β)) (h : alGet k l1 = some v) : alGet k (l1 ++ l2) = some v := by
  induction l1 with
  | nil => simp [alGet] at h
  | cons p t ih =>
    obtain ⟨k', v'⟩ := p
    by_cases h2 : k' = k
    · simp_all [alGet]
    · simp_all [alGet]

theorem alGet_append_of_none {α β : Type} [DecidableEq α] {k : α} {l1 : List (α × β)}
    (l2 : List (α × β)) (h : alGet k l1 = none) : alGet k (l1 ++ l2) = alGet k l2 := by
  induction l1 with
  | nil => simp
  | cons p t ih =>
    obtain ⟨k', v'⟩ := p
    by_cases h2 : k' = k
    · simp_all [alGet]
    · simp_all [alGet]

theorem alGet_alSetD_isSome {α β : Type} [DecidableEq α] (k : α) (v : β) (l : List (α × β)) :
    (alGet k (alSetD k v l)).isSome := by
  unfold alSetD
  cases h : alGet k l with
  | some w => simp [h]
  | none =>
    simp only [h, Option.isSome_none, Bool.false_eq_true, if_false]
    rw [alGet_append_of_none _ h]
    simp [alGet]

theorem alGet_alSetD_of_some {α β : Type} [DecidableEq α] {k k' : α} {v' : β} (v : β)
    {l : List (α × β)} (h : alGet k' l = some v') : alGet k' (alSetD k v l) = some v' := by
  unfold alSetD
  cases hs : alGet k l with
  | some w => simpa [hs]
  | none =>
    simp only [hs, Option.isSome_none, Bool.false_eq_true, if_false]
    exact alGet_append_of_some _ h

theorem alGet_mem {α β : Type} [DecidableEq α] {k : α} {v : β} {l : List (α × β)}
    (h : alGet k l = some v) : (k, v) ∈ l := by
  induction l with
  | nil => simp [alGet] at h
  | cons p t ih =>
    obtain ⟨k', v'⟩ := p
    by_cases h2 : k' = k
    · subst h2
      simp [alGet] at h
      simp [h]
    · simp [alGet, h2] at h
      exact List.mem_cons_of_mem _ (ih h)

/-! ## Presence of routes through the `extend` route phase -/

/-- `(b, p)` is a populated (bucket, path) slot of the route table. -/
def hasRoute (rt : RouteTable) (b p : String) : Prop :=
  ∃ inner, alGet b rt = some inner ∧ (alGet p inner).isSome

theorem insertRoute_establishes {rt : RouteTable} {effBase : String}
    (hs : (alGet effBase rt).isSome) (p : String) (mm : MethodMap) :
    hasRoute (insertRoute effBase p mm rt) effBase p := by
  obtain ⟨inner, hinner⟩ := Option.isSome_iff_exists.mp hs
  refine ⟨alSet p mm inner, ?_, ?_⟩
  · rw [insertRoute, alGet_alModify_self, hinner]
    rfl
  · simp [alGet_alSet_self]

theorem insertRoute_mono {rt : RouteTable} {b p : String} (effBase p' : String)
    (mm : MethodMap) (h : hasRoute rt b p) : hasRoute (insertRoute effBase p' mm rt) b p := by
  obtain ⟨inner, hget, hsome⟩ := h
  by_cases hb : effBase = b
  · subst hb
    refine ⟨alSet p' mm inner, ?_, ?_⟩
    · rw [insertRoute, alGet_alModify_self, hget]
      rfl
    · exact alGet_alSet_isSome _ _ _ _ hsome
  · exact ⟨inner, by rwa [insertRoute, alGet_alModify_ne hb], hsome⟩

theorem insertRoute_base_isSome {rt : RouteTable} {b : String} (effBase p' : String)
    (mm : MethodMap) (h : (alGet b rt).isSome) :
    (alGet b (insertRoute effBase p' mm rt)).isSome := by
  by_cases hb : effBase = b
  · rw [insertRoute, hb, alGet_alModify_self]
    cases hs : alGet b rt <;> simp_all
  · rwa [insertRoute, alGet_alModify_ne hb]

theorem extendBucket_mono (api : Nat) (effBase route : String) (paths : PathMap)
    {st : RouteTable × Heap} {b p : String} (h : hasRoute st.1 b p) :
    hasRoute (extendBucket api effBase route paths st).1 b p := by
  induction paths generalizing st with
  | nil => exact h
  | cons pr rest ih =>
    obtain ⟨p', mm⟩ := pr
    exact ih (insertRoute_mono _ _ _ h)

theorem extendBucket_base_isSome (api : Nat) (effBase route : String) (paths : PathMap)
    {st : RouteTable × Heap} {b : String} (h : (alGet b st.1).isSome) :
    (alGet b (extendBucket api effBase route paths st).1).isSome := by
  induction paths generalizing st with
  | nil => exact h
  | cons pr rest ih =>
    obtain ⟨p', mm⟩ := pr
    exact ih (insertRoute_base_isSome _ _ _ h)

theorem extendBucket_establishes (api : Nat) (effBase route : String) {paths : PathMap}
    {st : RouteTable × Heap} {p : String} {mm : MethodMap}
    (hbase : (alGet effBase st.1).isSome) (hmem : (p, mm) ∈ paths) :
    hasRoute (extendBucket api effBase route paths st).1 effBase (route ++ p) := by
  induction paths generalizing st with
  | nil => cases hmem
  | cons pr rest ih =>
    obtain ⟨p', mm'⟩ := pr
    rcases List.mem_cons.mp hmem with heq | hmem'
    · obtain ⟨hp, hm⟩ := Prod.mk.injEq .. ▸ heq
      subst hp
      exact extendBucket_mono api effBase route rest
        (insertRoute_establishes hbase (route ++ p) mm')
    · exact ih (insertRoute_base_isSome _ _ _ hbase) hmem'

theorem extendRoutesPhase_mono (api : Nat) (effBase route : String) (others : RouteTable)
    {st : RouteTable × Heap} {b p : String} (h : hasRoute st.1 b p) :
    hasRoute (extendRoutesPhase api effBase route others st).1 b p := by
  induction others generalizing st with
  | nil => exact h
  | cons bkt rest ih =>
    obtain ⟨rbu, paths⟩ := bkt
    refine ih (extendBucket_mono api effBase route paths ?_)
    obtain ⟨inner, hget, hsome⟩ := h
    exact ⟨inner, alGet_alSetD_of_some _ hget, hsome⟩

theorem extendRoutesPhase_establishes (api : Nat) (effBase route : String)
    {others : RouteTable} {st : RouteTable × Heap} {rbu p : String} {paths : PathMap}
    {mm : MethodMap} (hb : (rbu, paths) ∈ others) (hp : (p, mm) ∈ paths) :
    hasRoute (extendRoutesPhase api effBase route others st).1 effBase (route ++ p) := by
  induction others generalizing st with
  | nil => cases hb
  | cons bkt rest ih =>
    obtain ⟨rbu', paths'⟩ := bkt
    rcases List.mem_cons.mp hb with heq | hmem
    · obtain ⟨_, hpaths⟩ := Prod.mk.injEq .. ▸ heq
      subst hpaths
      exact extendRoutesPhase_mono api effBase route rest
        (extendBucket_establishes api effBase route (alGet_alSetD_isSome effBase [] st.1) hp)
    · exact ih hmem

theorem exception_handlers_none_eq (tbl : List (Option Nat × List (Nat × Nat))) :
    exception_handlers tbl none = alGet none tbl := by
  cases h : alGet (none : Option Nat) tbl <;> simp [exception_handlers, h]

/-- Claim C2 (counterexample): A has an exception handler for kind `10`
under version `2`; B lacks any entry for the pair `(2, 10)` but has kind
`10` under version `None`.  After `A.extend(B)` the registry B *still* has
no entry for `(2, 10)`: the backfill guard consults B's fallback-resolved
table `exception_handlers(2)`, which answers B's `None` table containing
kind `10`, so nothing is copied — contradicting the claim's "if B lacks an
entry for that pair then A's handler is copied". -/
theorem extend_exception_backfill_cex :
    alGet (some 2 : Option Nat)
        ({ emptyHTTP 3 "" with
            exceptionHandlerTable := [(none, [(10, 200)])] } : HTTPApi).exceptionHandlerTable
      = none ∧
    (HTTPApi.extend (fun _ => 0)
        { emptyHTTP 1 "" with exceptionHandlerTable := [(some 2, [(10, 100)])] }
        { emptyHTTP 3 "" with exceptionHandlerTable := [(none, [(10, 200)])] }
        "" "").2.1.exceptionHandlerTable = [(none, [(10, 200)])] ∧
    alGet (some 2 : Option Nat)
      (HTTPApi.extend (fun _ => 0)
        { emptyHTTP 1 "" with exceptionHandlerTable := [(some 2, [(10, 100)])] }
        { emptyHTTP 3 "" with exceptionHandlerTable := [(none, [(10, 200)])] }
        "" "").2.1.exceptionHandlerTable = none :=
  ⟨rfl, rfl, rfl⟩

/-- Claim C2 (amended): the backfill copies A's `(version, kind)` handler
into B only when B's *fallback-resolved* exception table for that version
(the exact-version table, else the `None` table) lacks that kind; in
particular — as the claim's own instance states — when A has a handler for
kind `K` under version `None` and B's effective `None` table has no entry
for `K`, after `A.extend(B)` the registry B also has an entry for `K` under
`None`, holding A's handler. -/
theorem extend_exception_backfill_none (K h : Nat) (B : HTTPApi) (heap : Heap)
    (route bu : String) (A : HTTPApi)
    (hA : A.exceptionHandlerTable = [(none, [(K, h)])])
    (hB : alGet K ((exception_handlers B.exceptionHandlerTable none).getD []) = none) :
    ∃ t, alGet (none : Option Nat)
        (HTTPApi.extend heap A B route bu).2.1.exceptionHandlerTable = some t ∧
      alGet K t = some h := by
  have hred : (HTTPApi.extend heap A B route bu).2.1.exceptionHandlerTable =
      extendExcPhase A.exceptionHandlerTable B.exceptionHandlerTable := rfl
  rw [hred, hA]
  show ∃ t, alGet (none : Option Nat)
      (extendExcEntries none [(K, h)] B.exceptionHandlerTable) = some t ∧ alGet K t = some h
  rw [extendExcEntries, hB]
  simp only [Option.isSome_none, Bool.false_eq_true, if_false, extendExcEntries]
  unfold add_exception_handler
  cases ht : alGet (none : Option Nat) B.exceptionHandlerTable with
  | some t0 =>
      simp only [ht, Option.isSome_some, if_true]
      refine ⟨alSet K h t0, ?_, alGet_alSet_self _ _ _⟩
      rw [alGet_alModify_self, ht]
      rfl
  | none =>
      simp only [ht, Option.isSome_none, Bool.false_eq_true, if_false]
      refine ⟨[(K, h)], ?_, by simp [alGet]⟩
      rw [alGet_append_of_none _ ht]
      simp [alGet]

theorem extend_exception_backfill_none_witness :
    ∃ t, alGet (none : Option Nat)
        (HTTPApi.extend (fun _ => 0)
          { emptyHTTP 1 "" with exceptionHandlerTable := [(none, [(10, 100)])] }
          (emptyHTTP 3 "") "" "").2.1.exceptionHandlerTable = some t ∧
      alGet 10 t = some 100 :=
  extend_exception_backfill_none 10 100 (emptyHTTP 3 "") (fun _ => 0) "" ""
    { emptyHTTP 1 "" with exceptionHandlerTable := [(none, [(10, 100)])] } rfl rfl

/-- Claim C3: with A holding `/a` and B holding `/b` (both in the empty
base-URL bucket, empty prefix and no base-URL override), `A.extend(B)`
leaves A's route table containing both `/a` and `/b`; A's `/b` entry is the
very same bucket value B's table holds (shared by reference, not copied);
and every handler reachable from B's route table has its `interface.api`
owner reference rebound (in the shared handler heap) to A's owner. -/
theorem extend_merges_routes_and_rebinds (mmA mmB : MethodMap) (heap : Heap)
    (apiA apiB : Nat) :
    (HTTPApi.extend heap
        { emptyHTTP apiA "" with routes := [("", [("/a", mmA)])] }
        { emptyHTTP apiB "" with routes := [("", [("/b", mmB)])] } "" "").1.routes =
      [("", [("/a", mmA), ("/b", mmB)])] ∧
    (HTTPApi.extend heap
        { emptyHTTP apiA "" with routes := [("", [("/a", mmA)])] }
        { emptyHTTP apiB "" with routes := [("", [("/b", mmB)])] } "" "").2.1.routes =
      [("", [("/b", mmB)])] ∧
    ∀ i ∈ mmIds mmB,
      (HTTPApi.extend heap
        { emptyHTTP apiA "" with routes := [("", [("/a", mmA)])] }
        { emptyHTTP apiB "" with routes := [("", [("/b", mmB)])] } "" "").2.2 i = apiA := by
  refine ⟨rfl, rfl, ?_⟩
  intro i hi
  show rebind heap (mmIds mmB) apiA i = apiA
  simp [rebind, hi]

theorem extend_merges_routes_witness :
    (HTTPApi.extend (fun _ => 99)
        { emptyHTTP 5 "" with routes := [("", [("/a", [("GET", [(VVal.vnone, 1)])])])] }
        { emptyHTTP 6 "" with routes := [("", [("/b", [("GET", [(VVal.vnone, 2)])])])] }
        "" "").1.routes =
      [("", [("/a", [("GET", [(VVal.vnone, 1)])]), ("/b", [("GET", [(VVal.vnone, 2)])])])] ∧
    (HTTPApi.extend (fun _ => 99)
        { emptyHTTP 5 "" with routes := [("", [("/a", [("GET", [(VVal.vnone, 1)])])])] }
        { emptyHTTP 6 "" with routes := [("", [("/b", [("GET", [(VVal.vnone, 2)])])])] }
        "" "").2.2 2 = 5 :=
  ⟨(extend_merges_routes_and_rebinds [("GET", [(VVal.vnone, 1)])]
      [("GET", [(VVal.vnone, 2)])] (fun _ => 99) 5 6).1,
   (extend_merges_routes_and_rebinds [("GET", [(VVal.vnone, 1)])]
      [("GET", [(VVal.vnone, 2)])] (fun _ => 99) 5 6).2.2 2 (by decide)⟩

/-- Claim C4 (counterexample): B's route table holds its bucket under B's
own base URL `/bb`.  `A.extend(B)` with no base-URL override inserts the
bucket under A's own base URL `""` — the iterated bucket key of B is
ignored — so A's table has no `/bb` bucket, contradicting the claim that
the bucket is inserted under B's own base_url. -/
theorem extend_bucket_base_url_cex :
    alGet "/bb" (HTTPApi.extend (fun _ => 0) (emptyHTTP 1 "")
        { emptyHTTP 2 "/bb" with routes := [("/bb", [("/b", [("GET", [(VVal.vnone, 7)])])])] }
        "" "").1.routes = none ∧
    alGet "" (HTTPApi.extend (fun _ => 0) (emptyHTTP 1 "")
        { emptyHTTP 2 "/bb" with routes := [("/bb", [("/b", [("GET", [(VVal.vnone, 7)])])])] }
        "" "").1.routes = some [("/b", [("GET", [(VVal.vnone, 7)])])] :=
  ⟨rfl, rfl⟩

/-- Claim C4 (amended): during `A.extend(B, route, base_url)`, every route
bucket entry taken from B's route table is inserted into A's route table
under the override base_url when one is given, else under *A's own*
base_url (B's per-bucket base URL is ignored), at path `route + original
path`. -/
theorem extend_bucket_under_self_base (heap : Heap) (A B : HTTPApi) (route bu : String)
    (rbu p : String) (paths : PathMap) (mm : MethodMap)
    (hb : (rbu, paths) ∈ B.routes) (hp : (p, mm) ∈ paths) :
    hasRoute (HTTPApi.extend heap A B route bu).1.routes
      (if bu = "" then A.base_url else bu) (route ++ p) := by
  show hasRoute (extendRoutesPhase A.api (if bu = "" then A.base_url else bu) route B.routes
      (A.routes, heap)).1 (if bu = "" then A.base_url else bu) (route ++ p)
  exact extendRoutesPhase_establishes _ _ _ hb hp

theorem extend_bucket_under_self_base_witness :
    hasRoute (HTTPApi.extend (fun _ => 0) (emptyHTTP 1 "/base")
        { emptyHTTP 2 "/bb" with routes := [("/bb", [("/b", [("GET", [(VVal.vnone, 7)])])])] }
        "/pre" "").1.routes "/base" "/pre/b" :=
  extend_bucket_under_self_base (fun _ => 0) (emptyHTTP 1 "/base")
    { emptyHTTP 2 "/bb" with routes := [("/bb", [("/b", [("GET", [(VVal.vnone, 7)])])])] }
    "/pre" "" "/bb" "/b" [("/b", [("GET", [(VVal.vnone, 7)])])] [("GET", [(VVal.vnone, 7)])]
    (by decide) (by decide)

/-! ## `aio_server` route registration (C5) -/

theorem mkRouters_eq (vm : VersionMap) : mkRouters vm = vm := by
  cases vm with
  | nil => rfl
  | cons x t =>
    cases t with
    | cons y t2 => rfl
    | nil =>
      obtain ⟨k, v⟩ := x
      by_cases hk : k = VVal.vnone
      · subst hk
        rfl
      · show mkRouters [(k, v)] = [(k, v)]
        unfold mkRouters
        have hg : alGet VVal.vnone [(k, v)] = none := by simp [alGet, hk]
        rw [hg]

theorem aioVersionLoop_mem (routers : VersionMap) (rbu url method : String) (n : Nat)
    (hne : routers ≠ []) :
    ∀ versions : List VVal, VVal.vint n ∈ versions →
      ∃ h', (rbu ++ "/v" ++ toString n ++ url, method, h') ∈
        aioVersionLoop routers rbu url method versions := by
  intro versions hmem
  induction versions with
  | nil => cases hmem
  | cons v rest ih =>
    rcases List.mem_cons.mp hmem with heq | hmem'
    · subst heq
      cases hget : alGet (VVal.vint n) routers with
      | some h' =>
          refine ⟨h', ?_⟩
          simp only [aioVersionLoop]
          rw [if_neg (by simp : ¬ (VVal.vint n = VVal.vnone)), hget]
          exact List.mem_append_left _ (List.mem_singleton_self _)
      | none =>
          cases routers with
          | nil => exact absurd rfl hne
          | cons r0 rt =>
              refine ⟨r0.2, ?_⟩
              simp only [aioVersionLoop]
              rw [if_neg (by simp : ¬ (VVal.vint n = VVal.vnone)), hget]
              exact List.mem_append_left _ (List.mem_singleton_self _)
    · obtain ⟨h', hm⟩ := ih hmem'
      refine ⟨h', ?_⟩
      simp only [aioVersionLoop]
      exact List.mem_append_right _ hm

theorem aioBucket_eq (versions : List VVal) (bu p m : String) (vm : VersionMap) :
    aioBucket versions bu p m vm =
      (match alGet VVal.vnone vm with
        | some h => [(bu ++ p, m, h)]
        | none => []) ++
      (if versions = [] then [] else aioVersionLoop vm bu p m versions) := by
  unfold aioBucket
  rw [mkRouters_eq]

/-- Claim C5: when the registry is translated to concrete server routes,
(a) a bucket holding an unversioned (`None`) entry gets a route registered
at `base_url + path` bound to it; (b) for each declared concrete version
`n`, a route is registered at `base_url + "/v" + n + path` (bound to the
bucket's own entry for `n` when present, else to the bucket's first
handler); and (c) for declared versions `{1, 2}` and a bucket containing
only an unversioned handler, the routes registered for `/v1` and `/v2` are
both bound to that same handler object. -/
theorem aio_server_version_routes :
    (∀ (versions : List VVal) (bu p m : String) (vm : VersionMap) (h : Nat),
        alGet VVal.vnone vm = some h →
        (bu ++ p, m, h) ∈ aioRoutes versions [(bu, [(p, [(m, vm)])])]) ∧
    (∀ (versions : List VVal) (bu p m : String) (vm : VersionMap) (n : Nat),
        vm ≠ [] → VVal.vint n ∈ versions →
        ∃ h', (bu ++ "/v" ++ toString n ++ p, m, h') ∈
          aioRoutes versions [(bu, [(p, [(m, vm)])])]) ∧
    (∀ h : Nat,
        aioRoutes [VVal.vint 1, VVal.vint 2] [("", [("/a", [("GET", [(VVal.vnone, h)])])])] =
          [("/a", "GET", h), ("/v1/a", "GET", h), ("/v2/a", "GET", h)]) := by
  refine ⟨?_, ?_, ?_⟩
  · intro versions bu p m vm h hget
    have hroutes : aioRoutes versions [(bu, [(p, [(m, vm)])])] =
        aioBucket versions bu p m vm := by
      simp [aioRoutes, aioPaths, aioMethods]
    rw [hroutes, aioBucket_eq, hget]
    exact List.mem_append_left _ (List.mem_singleton_self _)
  · intro versions bu p m vm n hvm hmem
    have hroutes : aioRoutes versions [(bu, [(p, [(m, vm)])])] =
        aioBucket versions bu p m vm := by
      simp [aioRoutes, aioPaths, aioMethods]
    rw [hroutes, aioBucket_eq]
    have hvs : versions ≠ [] := by
      rintro rfl
      cases hmem
    obtain ⟨h', hm⟩ := aioVersionLoop_mem vm bu p m n hvm versions hmem
    refine ⟨h', ?_⟩
    rw [if_neg hvs]
    exact List.mem_append_right _ hm
  · intro h
    rfl

theorem aio_server_version_routes_witness :
    ("/a", "GET", (7 : Nat)) ∈ aioRoutes [VVal.vint 1, VVal.vint 2]
        [("", [("/a", [("GET", [(VVal.vnone, 7)])])])] ∧
    ∃ h', ("/v2/a", "GET", h') ∈ aioRoutes [VVal.vint 1, VVal.vint 2]
        [("", [("/a", [("GET", [(VVal.vnone, 7)])])])] :=
  ⟨aio_server_version_routes.1 [VVal.vint 1, VVal.vint 2] "" "/a" "GET" [(VVal.vnone, 7)] 7 rfl,
   aio_server_version_routes.2.1 [VVal.vint 1, VVal.vint 2] "" "/a" "GET" [(VVal.vnone, 7)] 2
     (by decide) (by decide)⟩

/-! ## Top-level `API.extend` directive merge (C7) -/

theorem addDirectivesLoop_preserves (k : String) (ds : List (String × Directive))
    (acc : List (String × Directive))
    (hkeys : ∀ pd ∈ ds, pd.1 = pd.2.name) (hk : ∀ pd ∈ ds, pd.1 ≠ k) :
    alGet k (addDirectivesLoop ds acc) = alGet k acc := by
  induction ds generalizing acc with
  | nil => rfl
  | cons q rest ih =>
    obtain ⟨qk, qd⟩ := q
    have hq : qk = qd.name := hkeys _ (List.mem_cons_self _ _)
    have hqk : qk ≠ k := hk _ (List.mem_cons_self _ _)
    rw [addDirectivesLoop,
      ih _ (fun pd hpd => hkeys pd (List.mem_cons_of_mem _ hpd))
        (fun pd hpd => hk pd (List.mem_cons_of_mem _ hpd))]
    unfold add_directive
    rw [alGet_alSet_ne (hq ▸ hqk)]

theorem addDirectivesLoop_mem (ds : List (String × Directive))
    (acc : List (String × Directive))
    (hkeys : ∀ pd ∈ ds, pd.1 = pd.2.name) (hnodup : (ds.map Prod.fst).Nodup) :
    ∀ pd ∈ ds, alGet pd.1 (addDirectivesLoop ds acc) = some pd.2 := by
  induction ds generalizing acc with
  | nil =>
    intro pd hpd
    cases hpd
  | cons q rest ih =>
    obtain ⟨qk, qd⟩ := q
    obtain ⟨hnotin, hrest⟩ := List.nodup_cons.mp hnodup
    intro pd hpd
    have hq : qk = qd.name := hkeys _ (List.mem_cons_self _ _)
    rcases List.mem_cons.mp hpd with heq | hmem
    · subst heq
      have hknot : ∀ pd2 ∈ rest, pd2.1 ≠ qk := by
        intro pd2 hpd2 hk2
        have hmm : pd2.1 ∈ rest.map Prod.fst := List.mem_map_of_mem Prod.fst hpd2
        rw [hk2] at hmm
        exact hnotin hmm
      rw [addDirectivesLoop,
        addDirectivesLoop_preserves qk rest _
          (fun pd hpd => hkeys pd (List.mem_cons_of_mem _ hpd)) hknot]
      show alGet qk (alSet qd.name qd acc) = some qd
      rw [hq, alGet_alSet_self]
    · rw [addDirectivesLoop]
      exact ih _ (fun pd hpd => hkeys pd (List.mem_cons_of_mem _ hpd)) hrest pd hmem

theorem APIState_extend_directives (heap : Heap) (A B : APIState) (route bu : String) :
    (APIState.extend heap A B route bu).1.directives =
      addDirectivesLoop B.directives A.directives := by
  rcases hB : B.http with _ | oh <;> simp [APIState.extend, hB]

/-- Claim C7 (counterexample): A's directive mapping holds a directive
named `d` (implementation 1); B holds a different directive with the same
name (implementation 2).  After the top-level `A.extend(B)`, A's mapping
holds B's entry — the loop `self.add_directive(directive)` overwrites by
name — not A's pre-existing one as the claim states. -/
theorem api_extend_directive_overwrite_cex :
    (APIState.extend (fun _ => 0)
        ⟨1, [("d", ⟨"d", 1⟩)], none⟩ ⟨2, [("d", ⟨"d", 2⟩)], none⟩ "" "").1.directives =
      [("d", ⟨"d", 2⟩)] ∧
    (⟨"d", 2⟩ : Directive) ≠ ⟨"d", 1⟩ :=
  ⟨rfl, by decide⟩

/-- Claim C7 (amended): after the top-level `A.extend(B)`, A's directive
mapping contains every directive of B; on a directive-name collision B's
entry overwrites A's pre-existing entry (the other registry wins).  The
hypotheses state the dictionary invariant of `_directives`: keys are the
directives' `__name__`s and are unique. -/
theorem api_extend_directives_other_win (heap : Heap) (A B : APIState) (route bu : String)
    (hkeys : ∀ pd ∈ B.directives, pd.1 = pd.2.name)
    (hnodup : (B.directives.map Prod.fst).Nodup) :
    ∀ pd ∈ B.directives,
      alGet pd.1 (APIState.extend heap A B route bu).1.directives = some pd.2 := by
  intro pd hpd
  rw [APIState_extend_directives]
  exact addDirectivesLoop_mem _ _ hkeys hnodup pd hpd

theorem api_extend_directives_other_win_witness :
    alGet "d" (APIState.extend (fun _ => 0)
        ⟨1, [("d", ⟨"d", 1⟩)], none⟩ ⟨2, [("d", ⟨"d", 2⟩)], none⟩ "" "").1.directives =
      some ⟨"d", 2⟩ :=
  api_extend_directives_other_win (fun _ => 0)
    ⟨1, [("d", ⟨"d", 1⟩)], none⟩ ⟨2, [("d", ⟨"d", 2⟩)], none⟩ "" ""
    (by decide) (by decide) ("d", ⟨"d", 2⟩) (by decide)

/-! ## CLI dispatch (C8) -/

/-- Claim C8: CLI dispatch reads process argument 1: when it is absent
(fewer than two arguments) or not a registered command name, the process
exits with status 1 and no handler is invoked; otherwise the command name
is removed from the argument vector and the named handler is invoked, the
remaining arguments being all that it observes — for commands
`{"run": handler}` and arguments `["prog", "run", "x"]`, the handler is
invoked with remaining argument vector `["prog", "x"]`, i.e. with the
argument list `["x"]` beyond the program name. -/
theorem cli_dispatch_spec :
    (∀ (commands : List (String × Nat)) (argv : List String), argv.length ≤ 1 →
        cliCall commands argv = CLIResult.exitStatus 1) ∧
    (∀ (commands : List (String × Nat)) (prog cmd : String) (rest : List String),
        alGet cmd commands = none →
        cliCall commands (prog :: cmd :: rest) = CLIResult.exitStatus 1) ∧
    (∀ (commands : List (String × Nat)) (prog cmd : String) (rest : List String) (h : Nat),
        alGet cmd commands = some h →
        cliCall commands (prog :: cmd :: rest) = CLIResult.invoke h (prog :: rest)) ∧
    (∀ h : Nat,
        cliCall [("run", h)] ["prog", "run", "x"] = CLIResult.invoke h ["prog", "x"]) := by
  refine ⟨?_, ?_, ?_, ?_⟩
  · intro commands argv hlen
    match argv with
    | [] => rfl
    | [a] => rfl
    | a :: b :: t => simp at hlen
  · intro commands prog cmd rest hget
    simp [cliCall, hget]
  · intro commands prog cmd rest h hget
    simp [cliCall, hget]
  · intro h
    rfl

theorem cli_dispatch_spec_witness :
    cliCall [("run", 5)] ["prog", "unknown"] = CLIResult.exitStatus 1 ∧
    cliCall [("run", 5)] ["prog", "run", "x"] = CLIResult.invoke 5 ["prog", "x"] :=
  ⟨cli_dispatch_spec.2.1 [("run", 5)] "prog" "unknown" [] rfl,
   cli_dispatch_spec.2.2.2 5⟩

/-! ## `aio_server` not-found selection (C9) -/

/-- Claim C9: when the server is built, a registered custom not-found
handler is installed only when the not-found table holds exactly one entry
keyed `None`; for every non-empty table with more than one entry or
lacking the `None` key, the registered custom handlers are all ignored and
(with defaults enabled) the built-in documentation-producing 404 handler is
installed instead. -/
theorem aio_not_found_selection :
    (∀ (dnf : Bool) (nfh : List (Option Nat × Nat)) (h : Nat),
        aioNotFound dnf nfh = some (NFChoice.custom h) →
        nfh.length = 1 ∧ alGet (none : Option Nat) nfh = some h) ∧
    (∀ (dnf : Bool) (h : Nat),
        aioNotFound dnf [((none : Option Nat), h)] = some (NFChoice.custom h)) ∧
    (∀ nfh : List (Option Nat × Nat), nfh ≠ [] →
        nfh.length ≠ 1 ∨ alGet (none : Option Nat) nfh = none →
        aioNotFound true nfh = some NFChoice.docDefault) := by
  refine ⟨?_, ?_, ?_⟩
  · intro dnf nfh h hres
    simp only [aioNotFound] at hres
    split at hres
    · split at hres
      · rename_i hcond
        obtain ⟨hlen, hsome⟩ := hcond
        obtain ⟨v, hv⟩ := Option.isSome_iff_exists.mp hsome
        rw [hv] at hres
        simp only [Option.map_some'] at hres
        have hvh : v = h := by
          injection hres with h2
          injection h2
        subst hvh
        exact ⟨hlen, hv⟩
      · cases dnf <;> simp_all
    · cases dnf <;> simp_all
  · intro dnf h
    simp [aioNotFound, alGet]
  · intro nfh hne hbad
    simp only [aioNotFound]
    rw [if_pos hne, if_neg ?hc]
    case hc =>
      rintro ⟨hlen, hsome⟩
      rcases hbad with hbad | hbad
      · exact hbad hlen
      · rw [hbad] at hsome
        cases hsome
    rfl

/-! ## Documentation version filtering (C10) -/

theorem fragsOf_cons (p : String × MethodDocs) (t : VersionDict) :
    fragsOf (p :: t) = p.2.map Prod.snd ++ fragsOf t := rfl

theorem mem_map_snd_alSet {α β : Type} [DecidableEq α] {x v : β} {k : α} {l : List (α × β)}
    (h : x ∈ (alSet k v l).map Prod.snd) : x = v ∨ x ∈ l.map Prod.snd := by
  induction l with
  | nil =>
    simp [alSet] at h
    exact Or.inl h
  | cons p t ih =>
    obtain ⟨k', v'⟩ := p
    by_cases hk : k' = k
    · rw [show alSet k v ((k', v') :: t) = (k, v) :: t from by simp [alSet, hk]] at h
      rcases List.mem_cons.mp h with h | h
      · exact Or.inl h
      · exact Or.inr (List.mem_cons_of_mem _ h)
    · rw [show alSet k v ((k', v') :: t) = (k', v') :: alSet k v t from by
        simp [alSet, hk]] at h
      rcases List.mem_cons.mp h with h | h
      · exact Or.inr (h ▸ List.mem_cons_self _ _)
      · rcases ih h with h | h
        · exact Or.inl h
        · exact Or.inr (List.mem_cons_of_mem _ h)

theorem mem_fragsOf_alSet {x : DocFragment} {key : String} {doc : MethodDocs}
    {vd : VersionDict} (h : x ∈ fragsOf (alSet key doc vd)) :
    x ∈ doc.map Prod.snd ∨ x ∈ fragsOf vd := by
  induction vd with
  | nil =>
    rw [show alSet key doc ([] : VersionDict) = [(key, doc)] from rfl, fragsOf_cons] at h
    rcases List.mem_append.mp h with h | h
    · exact Or.inl h
    · simp [fragsOf] at h
  | cons p t ih =>
    obtain ⟨k', d'⟩ := p
    by_cases hk : k' = key
    · rw [show alSet key doc ((k', d') :: t) = (key, doc) :: t from by simp [alSet, hk],
        fragsOf_cons] at h
      rcases List.mem_append.mp h with h | h
      · exact Or.inl h
      · exact Or.inr (by rw [fragsOf_cons]; exact List.mem_append_right _ h)
    · rw [show alSet key doc ((k', d') :: t) = (k', d') :: alSet key doc t from by
        simp [alSet, hk], fragsOf_cons] at h
      rcases List.mem_append.mp h with h | h
      · exact Or.inr (by rw [fragsOf_cons]; exact List.mem_append_left _ h)
      · rcases ih h with h | h
        · exact Or.inl h
        · exact Or.inr (by rw [fragsOf_cons]; exact List.mem_append_right _ h)

theorem fragsOf_of_alGet {key : String} {doc : MethodDocs} {vd : VersionDict}
    (hg : alGet key vd = some doc) : ∀ x ∈ doc.map Prod.snd, x ∈ fragsOf vd := by
  intro x hx
  exact List.mem_flatten.mpr ⟨doc.map Prod.snd, List.mem_map_of_mem _ (alGet_mem hg), hx⟩

theorem mem_vdVersions {vv : VVal} {f : DocFragment} {vd : VersionDict}
    (hf : f ∈ fragsOf vd) (hv : vv ∈ f.versionsOf) : vv ∈ vdVersions vd :=
  List.mem_flatten.mpr ⟨f.versionsOf, List.mem_map_of_mem _ hf, hv⟩

theorem docInsert_only (m : Nat) (vd : VersionDict) (key method bu url : String) (h : Nat)
    (hvd : ∀ vv ∈ vdVersions vd, vv = VVal.vint m) :
    ∀ vv ∈ vdVersions (docInsert vd key method (VVal.vint m) bu url h),
      vv = VVal.vint m := by
  intro vv hvv
  obtain ⟨l, hl, hvl⟩ := List.mem_flatten.mp hvv
  obtain ⟨f, hf, rfl⟩ := List.mem_map.mp hl
  simp only [docInsert] at hf
  rcases mem_fragsOf_alSet hf with hml | hfv
  · rcases mem_map_snd_alSet hml with rfl | hdocmem
    · cases hget : alGet method ((alGet key vd).getD []) with
      | none =>
          rw [hget] at hvl
          simp only [DocFragment.versionsOf] at hvl
          simpa using hvl
      | some pf =>
          rw [hget] at hvl
          simp only [DocFragment.versionsOf] at hvl
          rcases List.mem_cons.mp hvl with h1 | h1
          · exact h1
          · cases hkey : alGet key vd with
            | none => rw [hkey] at hget; cases hget
            | some d =>
                rw [hkey] at hget
                have hpf : pf ∈ d.map Prod.snd :=
                  List.mem_map_of_mem Prod.snd (alGet_mem hget)
                exact hvd _ (mem_vdVersions (fragsOf_of_alGet hkey pf hpf) h1)
    · cases hkey : alGet key vd with
      | none =>
          rw [hkey] at hdocmem
          cases hdocmem
      | some d =>
          rw [hkey] at hdocmem
          exact hvd _ (mem_vdVersions (fragsOf_of_alGet hkey f hdocmem) hvl)
  · exact hvd _ (mem_vdVersions hfv hvl)

theorem pyVerNe_eq_false {v : VVal} {m : Nat} (hm : m ≠ 0) (hv : pyVerNe v m = false) :
    v = VVal.vint m := by
  cases v with
  | vint k =>
      simp only [pyVerNe, bne_eq_false_iff_eq] at hv
      rw [hv]
  | vfalse =>
      simp only [pyVerNe, bne_eq_false_iff_eq] at hv
      exact absurd hv hm
  | vnone => cases hv

theorem docApplyLoop_only (m : Nat) (hm : m ≠ 0) (effBase rbu url method : String) (h : Nat)
    (applies : List VVal) (vd : VersionDict)
    (hvd : ∀ vv ∈ vdVersions vd, vv = VVal.vint m) :
    ∀ vv ∈ vdVersions (docApplyLoop (some m) effBase rbu url method h applies vd),
      vv = VVal.vint m := by
  induction applies generalizing vd with
  | nil => exact hvd
  | cons v rest ih =>
    simp only [docApplyLoop]
    by_cases hskip : docSkip (some m) v = true
    · rw [if_pos hskip]
      exact ih vd hvd
    · rw [if_neg hskip]
      have hskip' : docSkip (some m) v = false := by
        simpa using hskip
      have hne : pyVerNe v m = false := by
        simp only [docSkip, Bool.and_eq_false_iff] at hskip'
        rcases hskip' with hskip' | hskip'
        · exact absurd (by simpa using hskip') hm
        · exact hskip'
      rw [pyVerNe_eq_false hm hne]
      exact ih _ (docInsert_only m vd (rbu ++ url) method
        (if rbu = "" then effBase else rbu) url h hvd)

theorem docVMLoop_only (m : Nat) (hm : m ≠ 0) (selfVersions : List VVal)
    (effBase rbu url method : String) (priv : Nat → Bool) (vm : VersionMap)
    (vd : VersionDict) (hvd : ∀ vv ∈ vdVersions vd, vv = VVal.vint m) :
    ∀ vv ∈ vdVersions (docVMLoop (some m) selfVersions effBase rbu url method priv vm vd),
      vv = VVal.vint m := by
  induction vm generalizing vd with
  | nil => exact hvd
  | cons q rest ih =>
    obtain ⟨version, h⟩ := q
    simp only [docVMLoop]
    by_cases hp : priv h = true
    · rw [if_pos hp]
      exact ih vd hvd
    · rw [if_neg hp]
      exact ih _ (docApplyLoop_only m hm effBase rbu url method h _ vd hvd)

theorem docMethodLoop_only (m : Nat) (hm : m ≠ 0) (selfVersions : List VVal)
    (effBase rbu url : String) (priv : Nat → Bool) (methods : MethodMap)
    (vd : VersionDict) (hvd : ∀ vv ∈ vdVersions vd, vv = VVal.vint m) :
    ∀ vv ∈ vdVersions (docMethodLoop (some m) selfVersions effBase rbu url priv methods vd),
      vv = VVal.vint m := by
  induction methods generalizing vd with
  | nil => exact hvd
  | cons q rest ih =>
    obtain ⟨method, vm⟩ := q
    simp only [docMethodLoop]
    exact ih _ (docVMLoop_only m hm selfVersions effBase rbu url method priv vm vd hvd)

theorem docUrlLoop_only (m : Nat) (hm : m ≠ 0) (selfVersions : List VVal)
    (effBase rbu : String) (priv : Nat → Bool) (paths : PathMap)
    (vd : VersionDict) (hvd : ∀ vv ∈ vdVersions vd, vv = VVal.vint m) :
    ∀ vv ∈ vdVersions (docUrlLoop (some m) selfVersions effBase rbu priv paths vd),
      vv = VVal.vint m := by
  induction paths generalizing vd with
  | nil => exact hvd
  | cons q rest ih =>
    obtain ⟨url, methods⟩ := q
    simp only [docUrlLoop]
    exact ih _ (docMethodLoop_only m hm selfVersions effBase rbu url priv methods vd hvd)

theorem docRoutesLoop_only (m : Nat) (hm : m ≠ 0) (selfVersions : List VVal)
    (effBase : String) (priv : Nat → Bool) (routes : RouteTable)
    (vd : VersionDict) (hvd : ∀ vv ∈ vdVersions vd, vv = VVal.vint m) :
    ∀ vv ∈ vdVersions (docRoutesLoop (some m) selfVersions effBase priv routes vd),
      vv = VVal.vint m := by
  induction routes generalizing vd with
  | nil => exact hvd
  | cons q rest ih =>
    obtain ⟨rbu, paths⟩ := q
    simp only [docRoutesLoop]
    exact ih _ (docUrlLoop_only m hm selfVersions effBase rbu priv paths vd hvd)

/-- Claim C10 (counterexample): for declared versions `{0, None}` (so `0`
is a declared version other than `None` and `False`, and the maximum such
version) and a single unversioned route, `documentation()` with no
requested version sets the `version` field to `0` — but the assembled
handler dictionary also contains a fragment built for version `None`: the
filter `if api_version and version != api_version` is disabled because the
chosen maximum `0` is Python-falsy, so entries are NOT restricted to the
chosen version. -/
theorem documentation_zero_version_cex :
    (documentation [VVal.vint 0, VVal.vnone]
        [("", [("/a", [("GET", [(VVal.vnone, 7)])])])] "" (fun _ => false) none none).1 =
      some 0 ∧
    VVal.vnone ∈ vdVersions
      (documentation [VVal.vint 0, VVal.vnone]
        [("", [("/a", [("GET", [(VVal.vnone, 7)])])])] "" (fun _ => false) none none).2.2 ∧
    VVal.vnone ≠ VVal.vint 0 :=
  ⟨rfl, by decide, by decide⟩

/-- Claim C10 (amended): for every registry whose declared version set
contains at least one value other than `None` and `False` and whose
maximum such declared version is nonzero (Python-truthy),
`documentation()` called with no requested api_version sets the `version`
field to that maximum and includes only handler entries applying to it:
every fragment stored in the assembled handler dictionary — unversioned
handlers being expanded across the declared versions first — was built for
exactly that version. -/
theorem documentation_max_version_filter (versions : List VVal) (routes : RouteTable)
    (sbu : String) (priv : Nat → Bool) (bu : Option String)
    (hne : (versionsListOf versions).isEmpty = false)
    (hm : maxVer (versionsListOf versions) ≠ 0) :
    (documentation versions routes sbu priv bu none).1 =
      some (maxVer (versionsListOf versions)) ∧
    ∀ vv ∈ vdVersions (documentation versions routes sbu priv bu none).2.2,
      vv = VVal.vint (maxVer (versionsListOf versions)) := by
  constructor
  · simp [documentation, hne]
  · have h2 : (documentation versions routes sbu priv bu none).2.2 =
        docRoutesLoop (some (maxVer (versionsListOf versions))) versions
          (match bu with | none => sbu | some b => b) priv routes [] := by
      simp [documentation, hne]
    rw [h2]
    exact docRoutesLoop_only _ hm versions _ priv routes []
      (by intro vv hvv; simp [vdVersions, fragsOf] at hvv)

theorem documentation_max_version_filter_witness :
    (documentation [VVal.vint 2, VVal.vint 1]
        [("", [("/a", [("GET", [(VVal.vnone, 7)])])])] "" (fun _ => false) none none).1 =
      some 2 ∧
    ∀ vv ∈ vdVersions
        (documentation [VVal.vint 2, VVal.vint 1]
          [("", [("/a", [("GET", [(VVal.vnone, 7)])])])] "" (fun _ => false) none none).2.2,
      vv = VVal.vint 2 :=
  documentation_max_version_filter [VVal.vint 2, VVal.vint 1]
    [("", [("/a", [("GET", [(VVal.vnone, 7)])])])] "" (fun _ => false) none rfl (by decide)

theorem aio_not_found_selection_witness :
    aioNotFound true [((none : Option Nat), 9)] = some (NFChoice.custom 9) ∧
    aioNotFound true [(some 1, 5), ((none : Option Nat), 6)] = some NFChoice.docDefault :=
  ⟨aio_not_found_selection.2.1 true 9,
   aio_not_found_selection.2.2 [(some 1, 5), (none, 6)] (by decide) (Or.inl (by decide))⟩
